import Mathlib

/-!
Verification development for the AutoClicker input-automation engine
(`src/actions.rs` and `src/errors.rs`).

The engine interprets a tree of actions (Press / Move / Delay / Loop)
against an OS input port (the `enigo` crate), under a cooperative
cancellation flag shared with another thread, and persists the root
`LoopAction` through a JSON codec (`serde_json`).

Embedding choices:
* The input port (`enigo`) is modelled by an oracle `Env`: `fail k`
  says whether the k-th port call fails, `loc k` gives the pointer
  position returned if the k-th call is a position query, `flag k`
  gives the value of the cancellation flag at its k-th read (the flag
  is written by another thread, so successive reads may differ), and
  `rnd k` is the k-th raw value drawn from the `fastrand` generator.
* Execution threads a state `St`: counters for port calls, flag reads
  and random draws, plus a trace of observable events (key/button
  down/up, pointer moves, position queries, sleeps).
* `u64` fields become `Nat`, `i32` fields become `Int`.  The `f64`
  interpolation `(x_rel as f64 * (t / T)).floor()` is modelled by exact
  integer floor division `Int.ediv (x_rel * t) T`; at the two points the
  theorems depend on (`t = 0` and `t = T`) the IEEE computation is exact
  (`T/T = 1.0` and `x * 1.0 = x` for any `i32` `x`), so the model and the
  code agree there, and the telescoping sums are independent of the
  rounding at interior ticks.
* `enigo::Key` and `enigo::Button` are external crate types; they are
  modelled by small closed inductives with the same serde encoding shape
  (unit variants plus a payload-carrying `unicode` variant for `Key`).
* The possibly-divergent `while` loop of `LoopAction::execute` is given
  fuel: `none` means the fuel ran out, `some r` is the result the Rust
  code produces.
-/

namespace AC

/-- Model of `enigo::Key` (external crate type): a few unit variants and
the payload-carrying `Unicode(char)` variant. -/
inductive Key where
  | shift
  | control
  | alt
  | returnKey
  | unicode (c : Char)
deriving DecidableEq

/-- Model of `enigo::Button` (external crate type): unit variants. -/
inductive MButton where
  | left
  | middle
  | right
deriving DecidableEq

/-- `KeyButton` from `actions.rs`: a closed variant over a keyboard key
or a mouse button. -/
inductive KeyButton where
  | KeyboardKey (key : Key)
  | MouseButton (button : MButton)
deriving DecidableEq

/-- `PressAction` from `actions.rs` (`u64` fields as `Nat`). -/
structure PressAction where
  keybutton : KeyButton
  down : Bool
  up : Bool
  hold_time_ms : Nat
  delay_after_ms : Nat
deriving DecidableEq

/-- `MoveAction` from `actions.rs` (`i32` as `Int`, `u64` as `Nat`). -/
structure MoveAction where
  x : Int
  y : Int
  relative : Bool
  move_time_ms : Nat
  delay_after_ms : Nat
deriving DecidableEq

/-- `DelayAction` from `actions.rs`. -/
structure DelayAction where
  random : Bool
  delay_ms_min : Nat
  delay_ms_max : Nat
deriving DecidableEq

mutual
/-- `Action` from `actions.rs`: closed variant over the four kinds. -/
inductive Action where
  | Loop (la : LoopAction)
  | Press (p : PressAction)
  | Move (m : MoveAction)
  | Delay (d : DelayAction)
/-- `LoopAction` from `actions.rs`: `infinite`, `iterations`, ordered body. -/
inductive LoopAction where
  | mk (infinite : Bool) (iterations : Nat) (actions : List Action)
end

/-- Field accessor `LoopAction.infinite`. -/
def LoopAction.infinite : LoopAction → Bool
  | .mk i _ _ => i

/-- Field accessor `LoopAction.iterations`. -/
def LoopAction.iterations : LoopAction → Nat
  | .mk _ n _ => n

/-- Field accessor `LoopAction.actions`. -/
def LoopAction.actions : LoopAction → List Action
  | .mk _ _ as => as

/-- Observable events of an execution: input-port calls (key/button
down and up, relative and absolute pointer moves, position queries) and
thread sleeps with their duration in milliseconds. -/
inductive Event where
  | down (kb : KeyButton)
  | up (kb : KeyButton)
  | moveRel (dx dy : Int)
  | moveAbs (x y : Int)
  | locate (x y : Int)
  | sleep (ms : Nat)
deriving DecidableEq

/-- `AppError` from `errors.rs`: an I/O error or an input-port
(`enigo::InputError`) error.  The input variant records the index of the
failed port call (the concrete `InputError` payload is opaque). -/
inductive AppError where
  | Io
  | Input (callIdx : Nat)
deriving DecidableEq

/-- Oracle for the environment: which port calls fail, the pointer
position returned by position queries, the cancellation flag value at
each read, and the raw `fastrand` draws. -/
structure Env where
  fail : Nat → Bool
  loc : Nat → Int × Int
  flag : Nat → Bool
  rnd : Nat → Nat

/-- Execution state: counters for port calls, cancellation-flag reads
and random draws, and the trace of events so far. -/
structure St where
  calls : Nat
  reads : Nat
  rands : Nat
  trace : List Event
deriving DecidableEq

/-- Append a sleep of `ms` milliseconds to the trace
(`thread::sleep(Duration::from_millis(ms))`). -/
def sleepSt (s : St) (ms : Nat) : St :=
  { s with trace := s.trace ++ [Event.sleep ms] }

/-- One fallible input-port call producing event `e`: if the oracle says
this call fails, the `?` operator propagates an `AppError::Input`;
otherwise the event is recorded.  An error carries the state at the
failure point (the side effects performed before the abort), so "nothing
further happened" is visible in the result. -/
def portCall (env : Env) (s : St) (e : Event) : Except (AppError × St) St :=
  if env.fail s.calls then
    Except.error (AppError.Input s.calls, s)
  else
    Except.ok { s with calls := s.calls + 1, trace := s.trace ++ [e] }

/-- `enigo.location()`: a fallible position query returning the pointer
position from the oracle. -/
def locCall (env : Env) (s : St) : Except (AppError × St) (St × Int × Int) :=
  if env.fail s.calls then
    Except.error (AppError.Input s.calls, s)
  else
    let p := env.loc s.calls
    Except.ok ({ s with calls := s.calls + 1,
                        trace := s.trace ++ [Event.locate p.1 p.2] }, p)

/-- `KeyButton::down`: press the key or button through the port. -/
def KeyButton.downCall (kb : KeyButton) (env : Env) (s : St) :
    Except (AppError × St) St :=
  portCall env s (Event.down kb)

/-- `KeyButton::up`: release the key or button through the port. -/
def KeyButton.upCall (kb : KeyButton) (env : Env) (s : St) :
    Except (AppError × St) St :=
  portCall env s (Event.up kb)

/-- `PressAction::execute`: if `down`, press; else if `up`, release; if
both `down` and `up`, sleep `hold_time_ms` then release; finally sleep
`delay_after_ms`. -/
def PressAction.execute (p : PressAction) (env : Env) (s : St) :
    Except (AppError × St) St := do
  let s ←
    if p.down then p.keybutton.downCall env s
    else if p.up then p.keybutton.upCall env s
    else Except.ok s
  let s ←
    if p.down && p.up then
      p.keybutton.upCall env (sleepSt s p.hold_time_ms)
    else Except.ok s
  Except.ok (sleepSt s p.delay_after_ms)

/-- `DelayAction::execute`: sleep exactly `delay_ms_min` when not random
or when `min ≥ max`; otherwise sleep `min + raw % (max - min)`, the
model of `fastrand::u64(min..max)` applied to the next raw draw (for a
uniform raw source this is the uniform distribution on `[min, max)`). -/
def DelayAction.execute (d : DelayAction) (env : Env) (s : St) : St :=
  if !d.random || d.delay_ms_min ≥ d.delay_ms_max then
    sleepSt s d.delay_ms_min
  else
    sleepSt { s with rands := s.rands + 1 }
      (d.delay_ms_min + env.rnd s.rands % (d.delay_ms_max - d.delay_ms_min))

/-- The cumulative intended displacement of the interpolation loop of
`MoveAction::execute` at elapsed time `t` out of `T`:
`(total as f64 * (t as f64 / T as f64)).floor() as i32`, modelled as the
exact floor `⌊total * t / T⌋` (`Int.ediv` is floor division for a
positive divisor).  At `t = 0` and `t = T` the IEEE `f64` computation is
exact and agrees with this model. -/
def interpPos (total : Int) (T t : Nat) : Int :=
  Int.ediv (total * (t : Int)) (T : Int)

/-- The interpolation loop of `MoveAction::execute` for
`move_time_ms = T > 0`: at each pass issue a relative move of the
cumulative displacement minus the previously applied cumulative
displacement, compute the tick sleep (3 ms, clamped to `T - t` on the
final tick), break after the move once `t ≥ T`, otherwise sleep and
advance. -/
def moveLoop (env : Env) (T : Nat) (xrel yrel : Int) (t : Nat)
    (xlast ylast : Int) (s : St) : Except (AppError × St) St :=
  let x := interpPos xrel T t
  let y := interpPos yrel T t
  match portCall env s (Event.moveRel (x - xlast) (y - ylast)) with
  | Except.error e => Except.error e
  | Except.ok s' =>
    if h : t ≥ T then Except.ok s'
    else
      moveLoop env T xrel yrel (t + (if t + 3 < T then 3 else T - t)) x y
        (sleepSt s' (if t + 3 < T then 3 else T - t))
termination_by T - t
decreasing_by
  simp only [not_le] at h
  split <;> omega

/-- `MoveAction::execute`: an instantaneous move when
`move_time_ms = 0`; otherwise resolve the displacement (querying the
pointer position when absolute) and run the interpolation loop; finally
sleep `delay_after_ms`. -/
def MoveAction.execute (m : MoveAction) (env : Env) (s : St) :
    Except (AppError × St) St := do
  let s ←
    if m.move_time_ms = 0 then
      if m.relative then portCall env s (Event.moveRel m.x m.y)
      else portCall env s (Event.moveAbs m.x m.y)
    else do
      let (s, xrel, yrel) ←
        if !m.relative then do
          match locCall env s with
          | Except.error e => Except.error e
          | Except.ok (s', px, py) => Except.ok (s', m.x - px, m.y - py)
        else Except.ok (s, m.x, m.y)
      moveLoop env m.move_time_ms xrel yrel 0 0 0 s
  Except.ok (sleepSt s m.delay_after_ms)

mutual
/-- `Action::execute`: dispatch on the variant.  `fuel` bounds the number
of `while`-loop passes the interpreter may still take; `none` means the
fuel ran out (the Rust code is still running), `some r` is the result
the Rust code returns. -/
def Action.execute (env : Env) (fuel : Nat) (a : Action) (s : St) :
    Option (Except (AppError × St) St) :=
  match a with
  | Action.Loop la => LoopAction.execute env fuel la s
  | Action.Press p => some (p.execute env s)
  | Action.Move m => some (m.execute env s)
  | Action.Delay d => some (Except.ok (d.execute env s))
termination_by (fuel, 1 + sizeOf a)

/-- `LoopAction::execute`: run the `while` loop from `i = 0` and discard
the final value of `i`. -/
def LoopAction.execute (env : Env) (fuel : Nat) (la : LoopAction)
    (s : St) : Option (Except (AppError × St) St) :=
  match execWhile env fuel la 0 s with
  | none => none
  | some (Except.error e) => some (Except.error e)
  | some (Except.ok (s', _)) => some (Except.ok s')
termination_by (fuel, 1)

/-- The `while (i < iterations || infinite) && !terminate` loop of
`LoopAction::execute`.  Each pass runs the body (`execBody`); the Rust
code then still executes `if !infinite { i += 1 } else if empty { break }`
before re-testing the condition, so `i` is bumped on every pass when not
infinite, including a pass that set `terminate`.  The returned `Nat` is
the final value of `i` (the number of completed body passes when not
infinite). -/
def execWhile (env : Env) (fuel : Nat) (la : LoopAction) (i : Nat)
    (s : St) : Option (Except (AppError × St) (St × Nat)) :=
  match fuel with
  | 0 => none
  | fuel + 1 =>
    if i < la.iterations ∨ la.infinite = true then
      match execBody env fuel la.actions s with
      | none => none
      | some (Except.error e) => some (Except.error e)
      | some (Except.ok (s', terminate)) =>
        let i' := if la.infinite then i else i + 1
        if terminate then some (Except.ok (s', i'))
        else if la.infinite && la.actions.isEmpty then
          some (Except.ok (s', i'))
        else execWhile env fuel la i' s'
    else some (Except.ok (s, i))
termination_by (fuel, 0)

/-- The `for action in &self.actions` loop of one body pass: execute each
sub-action in order (`?` propagates its error), then read the
cancellation flag; if it is set record `terminate = true` and break.
The returned `Bool` is `terminate`. -/
def execBody (env : Env) (fuel : Nat) (as : List Action) (s : St) :
    Option (Except (AppError × St) (St × Bool)) :=
  match as with
  | [] => some (Except.ok (s, false))
  | a :: rest =>
    match Action.execute env fuel a s with
    | none => none
    | some (Except.error e) => some (Except.error e)
    | some (Except.ok s') =>
      let fl := env.flag s'.reads
      let s'' := { s' with reads := s'.reads + 1 }
      if fl then some (Except.ok (s'', true))
      else execBody env fuel rest s''
termination_by (fuel, 1 + sizeOf as)
end

/-- The total displacement resolved by `MoveAction::execute` before the
interpolation loop: `(x, y)` itself when relative, target minus current
pointer position when absolute. -/
def displacement (m : MoveAction) (cur : Int × Int) : Int × Int :=
  if m.relative then (m.x, m.y) else (m.x - cur.1, m.y - cur.2)

/-- Sum of the x components of the relative-move events of a trace. -/
def sumRelX : List Event → Int
  | [] => 0
  | Event.moveRel dx _ :: rest => dx + sumRelX rest
  | _ :: rest => sumRelX rest

/-- Sum of the y components of the relative-move events of a trace. -/
def sumRelY : List Event → Int
  | [] => 0
  | Event.moveRel _ dy :: rest => dy + sumRelY rest
  | _ :: rest => sumRelY rest

/-- Sum of the durations of the sleep events of a trace. -/
def sumSleep : List Event → Nat
  | [] => 0
  | Event.sleep ms :: rest => ms + sumSleep rest
  | _ :: rest => sumSleep rest

theorem sumRelX_append (t u : List Event) :
    sumRelX (t ++ u) = sumRelX t + sumRelX u := by
  induction t with
  | nil => simp [sumRelX]
  | cons e rest ih => cases e <;> simp [sumRelX, ih] <;> ring

theorem sumRelY_append (t u : List Event) :
    sumRelY (t ++ u) = sumRelY t + sumRelY u := by
  induction t with
  | nil => simp [sumRelY]
  | cons e rest ih => cases e <;> simp [sumRelY, ih] <;> ring

theorem sumSleep_append (t u : List Event) :
    sumSleep (t ++ u) = sumSleep t + sumSleep u := by
  induction t with
  | nil => simp [sumSleep]
  | cons e rest ih => cases e <;> simp [sumSleep, ih] <;> omega

/-- Exactness of the interpolation loop: starting at elapsed time
`t ≤ T` with previously applied cumulative displacement
`(xlast, ylast)`, when no port call fails the loop succeeds, the
relative moves it issues sum (with the earlier trace) to the cumulative
displacement at time `T` minus what was already applied, and its sleeps
sum to exactly `T - t`. -/
theorem moveLoop_spec (env : Env) (hfail : ∀ k, env.fail k = false)
    (T : Nat) (xrel yrel : Int) :
    ∀ n t, T - t = n → t ≤ T → ∀ (xlast ylast : Int) (s : St),
      ∃ s', moveLoop env T xrel yrel t xlast ylast s = Except.ok s' ∧
        sumRelX s'.trace = sumRelX s.trace + (interpPos xrel T T - xlast) ∧
        sumRelY s'.trace = sumRelY s.trace + (interpPos yrel T T - ylast) ∧
        sumSleep s'.trace = sumSleep s.trace + (T - t) ∧
        s'.reads = s.reads ∧ s'.rands = s.rands := by
  intro n
  induction n using Nat.strong_induction_on with
  | _ n ih =>
    intro t hn ht xlast ylast s
    rw [moveLoop]
    simp only [portCall, hfail, Bool.false_eq_true, if_false]
    by_cases hge : t ≥ T
    · have hTt : t = T := le_antisymm ht hge
      subst hTt
      refine ⟨{ s with calls := s.calls + 1,
                       trace := s.trace ++
                         [Event.moveRel (interpPos xrel t t - xlast)
                           (interpPos yrel t t - ylast)] },
        by rw [dif_pos (le_refl t)], ?_, ?_, ?_, rfl, rfl⟩ <;>
        simp [sumRelX_append, sumRelY_append, sumSleep_append,
          sumRelX, sumRelY, sumSleep]
    · rw [dif_neg hge]
      have hlt : t < T := lt_of_not_ge hge
      have hstep : t + (if t + 3 < T then 3 else T - t) ≤ T ∧
          0 < (if t + 3 < T then 3 else T - t) := by
        split <;> omega
      obtain ⟨ht', hpos⟩ := hstep
      obtain ⟨s', heq, hx, hy, hsl, hr, hrn⟩ :=
        ih (T - (t + (if t + 3 < T then 3 else T - t))) (by omega)
          _ rfl ht' (interpPos xrel T t) (interpPos yrel T t)
          (sleepSt { s with calls := s.calls + 1,
                            trace := s.trace ++
                              [Event.moveRel (interpPos xrel T t - xlast)
                                (interpPos yrel T t - ylast)] }
            (if t + 3 < T then 3 else T - t))
      refine ⟨s', heq, ?_, ?_, ?_, hr, hrn⟩
      · rw [hx]
        simp [sleepSt, sumRelX_append, sumRelX]
        ring
      · rw [hy]
        simp [sleepSt, sumRelY_append, sumRelY]
        ring
      · rw [hsl]
        simp [sleepSt, sumSleep_append, sumSleep]
        omega

/-- At `t = T` the cumulative intended displacement is the whole
displacement: `⌊total * T / T⌋ = total`.  (This is the point at which the
`f64` computation of the code is exact as well: `T/T = 1.0` and
`total * 1.0 = total`.) -/
theorem interpPos_self (total : Int) (T : Nat) (hT : 0 < T) :
    interpPos total T T = total := by
  unfold interpPos
  exact Int.mul_ediv_cancel total (by exact_mod_cast hT.ne')

/-- The interpolation loop of a `MoveAction` with `move_time_ms = T > 0`
run from its entry state (`t = 0`, nothing applied yet): it succeeds,
its relative moves sum to exactly the resolved displacement on each
axis, and its sleeps sum to exactly `T`. -/
theorem moveLoop_entry (env : Env) (hfail : ∀ k, env.fail k = false)
    (T : Nat) (hT : 0 < T) (xrel yrel : Int) (s0 : St) :
    ∃ s1, moveLoop env T xrel yrel 0 0 0 s0 = Except.ok s1 ∧
      sumRelX s1.trace = sumRelX s0.trace + xrel ∧
      sumRelY s1.trace = sumRelY s0.trace + yrel ∧
      sumSleep s1.trace = sumSleep s0.trace + T := by
  obtain ⟨s1, heq, hx, hy, hsl, _, _⟩ :=
    moveLoop_spec env hfail T xrel yrel (T - 0) 0 rfl (Nat.zero_le _) 0 0 s0
  refine ⟨s1, heq, ?_, ?_, ?_⟩
  · rw [hx, interpPos_self _ _ hT]
    ring
  · rw [hy, interpPos_self _ _ hT]
    ring
  · rw [hsl, Nat.sub_zero]

theorem sumRelX_sleep (s : St) (ms : Nat) :
    sumRelX (sleepSt s ms).trace = sumRelX s.trace := by
  simp [sleepSt, sumRelX_append, sumRelX]

theorem sumRelY_sleep (s : St) (ms : Nat) :
    sumRelY (sleepSt s ms).trace = sumRelY s.trace := by
  simp [sleepSt, sumRelY_append, sumRelY]

theorem sumSleep_sleep (s : St) (ms : Nat) :
    sumSleep (sleepSt s ms).trace = sumSleep s.trace + ms := by
  simp [sleepSt, sumSleep_append, sumSleep]

/-- `MoveAction::execute` for `move_time_ms = T > 0` under a port that
never fails: it succeeds, the relative moves it issues sum to exactly
the displacement resolved at entry (`(x, y)` when relative, target minus
the queried pointer position when absolute), and its sleeps sum to
exactly `T` plus the trailing `delay_after_ms`. -/
theorem moveExecute_exact (env : Env) (hfail : ∀ k, env.fail k = false)
    (m : MoveAction) (hT : 0 < m.move_time_ms) (s : St) :
    ∃ s', MoveAction.execute m env s = Except.ok s' ∧
      sumRelX s'.trace = sumRelX s.trace +
        (displacement m (env.loc s.calls)).1 ∧
      sumRelY s'.trace = sumRelY s.trace +
        (displacement m (env.loc s.calls)).2 ∧
      sumSleep s'.trace = sumSleep s.trace + m.move_time_ms +
        m.delay_after_ms := by
  unfold MoveAction.execute
  by_cases hrel : m.relative
  · obtain ⟨s1, heq, hx, hy, hsl⟩ :=
      moveLoop_entry env hfail m.move_time_ms hT m.x m.y s
    refine ⟨sleepSt s1 m.delay_after_ms, ?_, ?_, ?_, ?_⟩
    · simp [hT.ne', hrel, heq, Bind.bind, Except.bind]
    · rw [sumRelX_sleep, hx]
      simp [displacement, hrel]
    · rw [sumRelY_sleep, hy]
      simp [displacement, hrel]
    · rw [sumSleep_sleep, hsl]
  · have hloc : locCall env s = Except.ok
        ({ s with calls := s.calls + 1,
                  trace := s.trace ++
                    [Event.locate (env.loc s.calls).1 (env.loc s.calls).2] },
          env.loc s.calls) := by
      simp [locCall, hfail]
    obtain ⟨s1, heq, hx, hy, hsl⟩ :=
      moveLoop_entry env hfail m.move_time_ms hT
        (m.x - (env.loc s.calls).1) (m.y - (env.loc s.calls).2)
        { s with calls := s.calls + 1,
                 trace := s.trace ++
                   [Event.locate (env.loc s.calls).1 (env.loc s.calls).2] }
    refine ⟨sleepSt s1 m.delay_after_ms, ?_, ?_, ?_, ?_⟩
    · simp [hT.ne', hrel, hloc, heq, Bind.bind, Except.bind]
    · rw [sumRelX_sleep, hx]
      simp [displacement, hrel, sumRelX_append, sumRelX]
    · rw [sumRelY_sleep, hy]
      simp [displacement, hrel, sumRelY_append, sumRelY]
    · rw [sumSleep_sleep, hsl]
      simp [sumSleep_append, sumSleep]

/-- The events `PressAction::execute` records when no port call fails:
the leading down (or the bare up), then for a click the hold sleep and
the paired release, then the trailing delay sleep. -/
def pressEvents (p : PressAction) : List Event :=
  (if p.down then [Event.down p.keybutton]
   else if p.up then [Event.up p.keybutton] else []) ++
  (if p.down && p.up then [Event.sleep p.hold_time_ms, Event.up p.keybutton]
   else []) ++
  [Event.sleep p.delay_after_ms]

/-- The number of port calls `PressAction::execute` makes when none
fails. -/
def pressCalls (p : PressAction) : Nat :=
  (if p.down || p.up then 1 else 0) + (if p.down && p.up then 1 else 0)

/-- When no port call fails, `PressAction::execute` succeeds and appends
exactly its press/hold/release/delay events. -/
theorem press_execute_ok (env : Env) (hfail : ∀ k, env.fail k = false)
    (p : PressAction) (s : St) :
    PressAction.execute p env s =
      Except.ok { s with calls := s.calls + pressCalls p,
                         trace := s.trace ++ pressEvents p } := by
  cases hd : p.down <;> cases hu : p.up <;>
    simp [PressAction.execute, KeyButton.downCall, KeyButton.upCall,
      portCall, hfail, hd, hu, pressEvents, pressCalls, sleepSt,
      Bind.bind, Except.bind]

/-- Remove the first occurrence of `kb` from a list. -/
def removeOne (kb : KeyButton) : List KeyButton → List KeyButton
  | [] => []
  | x :: xs => if x = kb then xs else x :: removeOne kb xs

/-- Keys and buttons held down after processing a trace, starting from
the held-set `acc`: a down event pushes, an up event releases one
matching entry, all other events leave the set unchanged. -/
def heldFrom (acc : List KeyButton) : List Event → List KeyButton
  | [] => acc
  | Event.down kb :: rest => heldFrom (kb :: acc) rest
  | Event.up kb :: rest => heldFrom (removeOne kb acc) rest
  | Event.moveRel _ _ :: rest => heldFrom acc rest
  | Event.moveAbs _ _ :: rest => heldFrom acc rest
  | Event.locate _ _ :: rest => heldFrom acc rest
  | Event.sleep _ :: rest => heldFrom acc rest

/-- Keys and buttons held down at the end of a trace. -/
def held (t : List Event) : List KeyButton := heldFrom [] t

theorem heldFrom_append (t u : List Event) : ∀ acc,
    heldFrom acc (t ++ u) = heldFrom (heldFrom acc t) u := by
  induction t with
  | nil => intro acc; simp [heldFrom]
  | cons e rest ih => intro acc; cases e <;> simp [heldFrom, ih]

/-- Events that touch the held-set. -/
def isKeyEvent : Event → Bool
  | Event.down _ => true
  | Event.up _ => true
  | _ => false

theorem heldFrom_keyFree (u : List Event) :
    ∀ acc, (∀ e ∈ u, isKeyEvent e = false) → heldFrom acc u = acc := by
  induction u with
  | nil => intro acc _; simp [heldFrom]
  | cons e rest ih =>
    intro acc h
    cases e <;> simp_all [heldFrom, isKeyEvent]

/-- The events of a press whose down (if any) is paired with an up leave
an empty held-set empty. -/
theorem heldFrom_pressEvents (p : PressAction)
    (hsafe : p.down = true → p.up = true) :
    heldFrom [] (pressEvents p) = [] := by
  cases hd : p.down <;> cases hu : p.up <;>
    simp_all [pressEvents, heldFrom, removeOne]

/-- Whatever the interpolation loop does, it only appends pointer-move
and sleep events to the trace, and never touches the flag-read or
random counters. -/
theorem moveLoop_keyfree (env : Env) (T : Nat) (xrel yrel : Int) :
    ∀ n t, T - t = n → ∀ (xlast ylast : Int) (s s' : St),
      moveLoop env T xrel yrel t xlast ylast s = Except.ok s' →
      ∃ u, s'.trace = s.trace ++ u ∧ (∀ e ∈ u, isKeyEvent e = false) ∧
        s'.reads = s.reads ∧ s'.rands = s.rands := by
  intro n
  induction n using Nat.strong_induction_on with
  | _ n ih =>
    intro t hn xlast ylast s s' heq
    rw [moveLoop] at heq
    rcases hf : env.fail s.calls with _ | _ <;>
      simp only [portCall, hf, Bool.false_eq_true, if_false, if_true] at heq
    · by_cases hge : t ≥ T
      · rw [dif_pos hge] at heq
        cases heq
        exact ⟨[Event.moveRel (interpPos xrel T t - xlast)
            (interpPos yrel T t - ylast)], rfl,
          by simp [isKeyEvent], rfl, rfl⟩
      · rw [dif_neg hge] at heq
        have hlt : t < T := lt_of_not_ge hge
        have hpos : 0 < (if t + 3 < T then 3 else T - t) := by
          split <;> omega
        obtain ⟨u, hu, hkf, hr, hrn⟩ :=
          ih (T - (t + (if t + 3 < T then 3 else T - t))) (by omega)
            _ rfl _ _ _ _ heq
        refine ⟨Event.moveRel (interpPos xrel T t - xlast)
            (interpPos yrel T t - ylast) ::
            Event.sleep (if t + 3 < T then 3 else T - t) :: u, ?_, ?_, hr, hrn⟩
        · rw [hu]
          simp [sleepSt]
        · intro e he
          rcases List.mem_cons.mp he with he | he
          · simp [he, isKeyEvent]
          rcases List.mem_cons.mp he with he | he
          · simp [he, isKeyEvent]
          · exact hkf e he
    · cases heq

/-- Whatever `MoveAction::execute` does, when it succeeds it only
appends pointer-move, position-query and sleep events, and never
touches the flag-read or random counters. -/
theorem moveExecute_keyfree (env : Env) (m : MoveAction) (s s' : St)
    (h : MoveAction.execute m env s = Except.ok s') :
    ∃ u, s'.trace = s.trace ++ u ∧ (∀ e ∈ u, isKeyEvent e = false) ∧
      s'.reads = s.reads ∧ s'.rands = s.rands := by
  unfold MoveAction.execute at h
  by_cases h0 : m.move_time_ms = 0
  · by_cases hrel : m.relative <;>
      rcases hf : env.fail s.calls with _ | _ <;>
      simp only [h0, hrel, portCall, hf, if_true, if_false, reduceIte,
        Bool.false_eq_true, Bind.bind, Except.bind] at h <;>
      cases h
    · exact ⟨[Event.moveRel m.x m.y, Event.sleep m.delay_after_ms],
        by simp [sleepSt], by simp [isKeyEvent], rfl, rfl⟩
    · exact ⟨[Event.moveAbs m.x m.y, Event.sleep m.delay_after_ms],
        by simp [sleepSt], by simp [isKeyEvent], rfl, rfl⟩
  · by_cases hrel : m.relative
    · simp only [h0, hrel, if_false, if_true, reduceIte, Bool.not_true,
        Bind.bind, Except.bind] at h
      rcases hml : moveLoop env m.move_time_ms m.x m.y 0 0 0 s with s1 | s1 <;>
        rw [hml] at h <;> cases h
      obtain ⟨u, hu, hkf, hr, hrn⟩ :=
        moveLoop_keyfree env m.move_time_ms m.x m.y _ 0 rfl 0 0 s s1 hml
      refine ⟨u ++ [Event.sleep m.delay_after_ms], ?_, ?_, hr, hrn⟩
      · simp [sleepSt, hu]
      · intro e he
        rcases List.mem_append.mp he with he | he
        · exact hkf e he
        · simp at he
          simp [he, isKeyEvent]
    · rcases hf : env.fail s.calls with _ | _ <;>
        simp only [h0, hrel, locCall, hf, if_true, if_false, reduceIte,
          Bool.not_false, Bool.false_eq_true, Bind.bind, Except.bind] at h
      · rcases hml : moveLoop env m.move_time_ms (m.x - (env.loc s.calls).1)
            (m.y - (env.loc s.calls).2) 0 0 0
            { s with calls := s.calls + 1,
                     trace := s.trace ++ [Event.locate (env.loc s.calls).1
                       (env.loc s.calls).2] } with s1 | s1 <;>
          rw [hml] at h <;> cases h
        obtain ⟨u, hu, hkf, hr, hrn⟩ :=
          moveLoop_keyfree env m.move_time_ms _ _ _ 0 rfl 0 0 _ s1 hml
        refine ⟨Event.locate (env.loc s.calls).1 (env.loc s.calls).2 ::
            (u ++ [Event.sleep m.delay_after_ms]), ?_, ?_, by simpa using hr,
            by simpa using hrn⟩
        · rw [sleepSt, hu]
          simp
        · intro e he
          rcases List.mem_cons.mp he with he | he
          · simp [he, isKeyEvent]
          · rcases List.mem_append.mp he with he | he
            · exact hkf e he
            · simp at he
              simp [he, isKeyEvent]
      · cases h

/-- When no port call fails, `MoveAction::execute` succeeds. -/
theorem move_execute_ok (env : Env) (hfail : ∀ k, env.fail k = false)
    (m : MoveAction) (s : St) :
    ∃ s', MoveAction.execute m env s = Except.ok s' := by
  by_cases h0 : m.move_time_ms = 0
  · by_cases hrel : m.relative
    · refine ⟨sleepSt (St.mk (s.calls + 1) s.reads s.rands
          (s.trace ++ [Event.moveRel m.x m.y])) m.delay_after_ms, ?_⟩
      unfold MoveAction.execute
      simp [h0, hrel, portCall, hfail, Bind.bind, Except.bind]
    · refine ⟨sleepSt (St.mk (s.calls + 1) s.reads s.rands
          (s.trace ++ [Event.moveAbs m.x m.y])) m.delay_after_ms, ?_⟩
      unfold MoveAction.execute
      simp [h0, hrel, portCall, hfail, Bind.bind, Except.bind]
  · obtain ⟨s', h, _⟩ :=
      moveExecute_exact env hfail m (Nat.pos_of_ne_zero h0) s
    exact ⟨s', h⟩

mutual
/-- Every `PressAction` in the tree satisfies `GP`. -/
def Action.pressesOk (GP : PressAction → Prop) : Action → Prop
  | Action.Loop la => LoopAction.pressesOk GP la
  | Action.Press p => GP p
  | Action.Move _ => True
  | Action.Delay _ => True
termination_by a => (sizeOf a, 1)

/-- Every `PressAction` in the loop body satisfies `GP`. -/
def LoopAction.pressesOk (GP : PressAction → Prop) : LoopAction → Prop
  | LoopAction.mk _ _ as => listPressesOk GP as
termination_by la => (sizeOf la, 0)

/-- Every `PressAction` in any action of the list satisfies `GP`. -/
def listPressesOk (GP : PressAction → Prop) : List Action → Prop
  | [] => True
  | a :: rest => Action.pressesOk GP a ∧ listPressesOk GP rest
termination_by as => (sizeOf as, 0)
end

theorem pressesOk_Loop (GP : PressAction → Prop) (la : LoopAction) :
    Action.pressesOk GP (Action.Loop la) = LoopAction.pressesOk GP la := by
  rw [Action.pressesOk]

theorem pressesOk_Press (GP : PressAction → Prop) (p : PressAction) :
    Action.pressesOk GP (Action.Press p) = GP p := by
  rw [Action.pressesOk]

theorem pressesOk_Move (GP : PressAction → Prop) (m : MoveAction) :
    Action.pressesOk GP (Action.Move m) = True := by
  rw [Action.pressesOk]

theorem pressesOk_Delay (GP : PressAction → Prop) (d : DelayAction) :
    Action.pressesOk GP (Action.Delay d) = True := by
  rw [Action.pressesOk]

theorem pressesOk_mk (GP : PressAction → Prop) (inf : Bool) (n : Nat)
    (as : List Action) :
    LoopAction.pressesOk GP (LoopAction.mk inf n as) = listPressesOk GP as := by
  rw [LoopAction.pressesOk]

theorem listPressesOk_nil (GP : PressAction → Prop) :
    listPressesOk GP [] = True := by
  rw [listPressesOk]

theorem listPressesOk_cons (GP : PressAction → Prop) (a : Action)
    (rest : List Action) :
    listPressesOk GP (a :: rest) =
      (Action.pressesOk GP a ∧ listPressesOk GP rest) := by
  rw [listPressesOk]

mutual
theorem actionPressesOk_trivial (a : Action) :
    Action.pressesOk (fun _ => True) a := by
  cases a with
  | Loop la => rw [pressesOk_Loop]; exact loopPressesOk_trivial la
  | Press p => rw [pressesOk_Press]; exact trivial
  | Move m => rw [pressesOk_Move]; exact trivial
  | Delay d => rw [pressesOk_Delay]; exact trivial
termination_by (sizeOf a, 1)

theorem loopPressesOk_trivial (la : LoopAction) :
    LoopAction.pressesOk (fun _ => True) la := by
  cases la with
  | mk inf n as => rw [pressesOk_mk]; exact listPressesOk_trivial as
termination_by (sizeOf la, 0)

theorem listPressesOk_trivial (as : List Action) :
    listPressesOk (fun _ => True) as := by
  cases as with
  | nil => rw [listPressesOk_nil]; exact trivial
  | cons a rest =>
    rw [listPressesOk_cons]
    exact ⟨actionPressesOk_trivial a, listPressesOk_trivial rest⟩
termination_by (sizeOf as, 0)
end

/-- Master lemma about the interpreter when no port call fails: every
execution either runs out of fuel or succeeds (never an error), and any
state-transition property `R` that holds for each leaf effect — each
press whose `PressAction` satisfies the guard `GP`, each move, each
delay, each flag read — and is reflexive and transitive, holds across
the whole run of any tree whose presses all satisfy `GP`. -/
theorem execWhile_master (env : Env) (hfail : ∀ k, env.fail k = false)
    (R : St → St → Prop) (GP : PressAction → Prop)
    (hrefl : ∀ s, R s s)
    (htrans : ∀ a b c, R a b → R b c → R a c)
    (hread : ∀ s, R s { s with reads := s.reads + 1 })
    (hpress : ∀ p s, GP p →
      R s { s with calls := s.calls + pressCalls p,
                   trace := s.trace ++ pressEvents p })
    (hmove : ∀ m s s', MoveAction.execute m env s = Except.ok s' → R s s')
    (hdelay : ∀ d s, R s (DelayAction.execute d env s)) :
    ∀ fuel,
      (∀ la i s, LoopAction.pressesOk GP la →
        execWhile env fuel la i s = none ∨
        ∃ r, execWhile env fuel la i s = some (Except.ok r) ∧ R s r.1) ∧
      (∀ a s, Action.pressesOk GP a →
        Action.execute env fuel a s = none ∨
        ∃ s', Action.execute env fuel a s = some (Except.ok s') ∧ R s s') ∧
      (∀ as s, listPressesOk GP as →
        execBody env fuel as s = none ∨
        ∃ rb, execBody env fuel as s = some (Except.ok rb) ∧ R s rb.1) := by
  have hactStep : ∀ fuel,
      (∀ la i s, LoopAction.pressesOk GP la →
        execWhile env fuel la i s = none ∨
        ∃ r, execWhile env fuel la i s = some (Except.ok r) ∧ R s r.1) →
      (∀ a s, Action.pressesOk GP a →
        Action.execute env fuel a s = none ∨
        ∃ s', Action.execute env fuel a s = some (Except.ok s') ∧ R s s') := by
    intro fuel hw a s hok
    cases a with
    | Loop la =>
      rw [pressesOk_Loop] at hok
      rcases hw la 0 s hok with hnone | ⟨r, heq, hR⟩
      · left
        simp [Action.execute, LoopAction.execute, hnone]
      · right
        exact ⟨r.1, by simp [Action.execute, LoopAction.execute, heq], hR⟩
    | Press p =>
      rw [pressesOk_Press] at hok
      right
      exact ⟨_, by simp [Action.execute, press_execute_ok env hfail],
        hpress p s hok⟩
    | Move m =>
      obtain ⟨s', hm⟩ := move_execute_ok env hfail m s
      right
      exact ⟨s', by simp [Action.execute, hm], hmove m s s' hm⟩
    | Delay d =>
      right
      exact ⟨_, by simp [Action.execute], hdelay d s⟩
  have hbodyStep : ∀ fuel,
      (∀ a s, Action.pressesOk GP a →
        Action.execute env fuel a s = none ∨
        ∃ s', Action.execute env fuel a s = some (Except.ok s') ∧ R s s') →
      (∀ as s, listPressesOk GP as →
        execBody env fuel as s = none ∨
        ∃ rb, execBody env fuel as s = some (Except.ok rb) ∧ R s rb.1) := by
    intro fuel ha as
    induction as with
    | nil =>
      intro s _
      right
      exact ⟨(s, false), by simp [execBody], hrefl s⟩
    | cons a rest ih =>
      intro s hok
      rw [listPressesOk_cons] at hok
      rcases ha a s hok.1 with hnone | ⟨s1, heq, hR1⟩
      · left
        simp [execBody, hnone]
      · have hR2 : R s { s1 with reads := s1.reads + 1 } :=
          htrans _ _ _ hR1 (hread s1)
        by_cases hfl : env.flag s1.reads
        · right
          refine ⟨({ s1 with reads := s1.reads + 1 }, true), ?_, hR2⟩
          simp [execBody, heq, hfl]
        · rcases ih { s1 with reads := s1.reads + 1 } hok.2 with
            hnone | ⟨rb, heqb, hRb⟩
          · left
            simp [execBody, heq, hfl, hnone]
          · right
            refine ⟨rb, ?_, htrans _ _ _ hR2 hRb⟩
            simp [execBody, heq, hfl, heqb]
  intro fuel
  induction fuel with
  | zero =>
    have hw : ∀ la i s, LoopAction.pressesOk GP la →
        execWhile env 0 la i s = none ∨
        ∃ r, execWhile env 0 la i s = some (Except.ok r) ∧ R s r.1 := by
      intro la i s _
      left
      simp [execWhile]
    exact ⟨hw, hactStep 0 hw, hbodyStep 0 (hactStep 0 hw)⟩
  | succ fuel ihf =>
    obtain ⟨ihw, iha, ihb⟩ := ihf
    have hw : ∀ la i s, LoopAction.pressesOk GP la →
        execWhile env (fuel + 1) la i s = none ∨
        ∃ r, execWhile env (fuel + 1) la i s = some (Except.ok r) ∧
          R s r.1 := by
      intro la i s hok
      have hbody := hbodyStep fuel iha la.actions s
      by_cases hcond : i < la.iterations ∨ la.infinite = true
      · have hokb : listPressesOk GP la.actions := by
          cases la with
          | mk inf n as =>
            rw [LoopAction.actions]
            rw [pressesOk_mk] at hok
            exact hok
        rcases hbody hokb with hnone | ⟨⟨s1, term⟩, heqb, hRb⟩
        · left
          simp [execWhile, hcond, hnone]
        · cases term with
          | true =>
            right
            refine ⟨(s1, if la.infinite then i else i + 1), ?_, hRb⟩
            simp [execWhile, hcond, heqb]
          | false =>
            by_cases hbrk : la.infinite && la.actions.isEmpty
            · right
              refine ⟨(s1, if la.infinite then i else i + 1), ?_, hRb⟩
              simp [execWhile, hcond, heqb, hbrk]
            · rcases ihw la (if la.infinite then i else i + 1) s1 hok with
                hnone | ⟨r, heqw, hRw⟩
              · left
                simp [execWhile, hcond, heqb, hbrk, hnone]
              · right
                refine ⟨r, ?_, htrans _ _ _ hRb hRw⟩
                simp [execWhile, hcond, heqb, hbrk, heqw]
      · right
        refine ⟨(s, i), ?_, hrefl s⟩
        simp [execWhile, hcond]
    exact ⟨hw, hactStep (fuel + 1) hw, hbodyStep (fuel + 1)
      (hactStep (fuel + 1) hw)⟩

/-- When the cancellation flag is never set, a body pass never reports
`terminate`. -/
theorem execBody_no_terminate (env : Env) (hflag : ∀ k, env.flag k = false)
    (fuel : Nat) : ∀ (as : List Action) (s s' : St) (term : Bool),
    execBody env fuel as s = some (Except.ok (s', term)) → term = false := by
  intro as
  induction as with
  | nil =>
    intro s s' term h
    simp [execBody] at h
    exact h.2
  | cons a rest ih =>
    intro s s' term h
    rw [execBody] at h
    rcases hae : Action.execute env fuel a s with _ | ae
    · rw [hae] at h
      cases h
    · rw [hae] at h
      cases ae with
      | error e => simp at h
      | ok s1 =>
        simp only [hflag, Bool.false_eq_true, if_false] at h
        exact ih _ s' term h

/-- When the cancellation flag is never set and the loop is not
infinite, the loop counter at a successful exit equals `iterations`:
the body was entered exactly `iterations` times. -/
theorem execWhile_count (env : Env) (hflag : ∀ k, env.flag k = false)
    (la : LoopAction) (hinf : la.infinite = false) :
    ∀ fuel i s s' n, i ≤ la.iterations →
      execWhile env fuel la i s = some (Except.ok (s', n)) →
      n = la.iterations := by
  intro fuel
  induction fuel with
  | zero =>
    intro i s s' n _ h
    simp [execWhile] at h
  | succ fuel ih =>
    intro i s s' n hi h
    rw [execWhile] at h
    by_cases hcond : i < la.iterations ∨ la.infinite = true
    · rw [if_pos hcond] at h
      rcases hb : execBody env fuel la.actions s with _ | b
      · rw [hb] at h
        cases h
      · rw [hb] at h
        cases b with
        | error e => simp at h
        | ok rb =>
          have hterm : rb.2 = false :=
            execBody_no_terminate env hflag fuel la.actions s rb.1 rb.2
              (by rw [hb])
          have hlt : i < la.iterations := by
            rcases hcond with hlt | hinf'
            · exact hlt
            · rw [hinf] at hinf'
              cases hinf'
          simp only [hterm, hinf, Bool.false_eq_true, if_false,
            Bool.false_and, Bool.and_eq_true, if_neg] at h
          exact ih (i + 1) rb.1 s' n (by omega) h
    · rw [if_neg hcond] at h
      simp only [Option.some.injEq, Except.ok.injEq, Prod.mk.injEq] at h
      have : ¬ i < la.iterations := fun hc => hcond (Or.inl hc)
      omega

/-- A body pass that set `terminate` makes the `while` loop exit at once
with an `Ok` result (the Rust code still runs the trailing
`if !infinite {{ i += 1 }}` before re-testing the loop condition). -/
theorem execWhile_terminates_on_flag (env : Env) (fuel : Nat)
    (la : LoopAction) (i : Nat) (s s1 : St)
    (hcond : i < la.iterations ∨ la.infinite = true)
    (hbody : execBody env fuel la.actions s = some (Except.ok (s1, true))) :
    execWhile env (fuel + 1) la i s =
      some (Except.ok (s1, if la.infinite then i else i + 1)) := by
  rw [execWhile, if_pos hcond, hbody]
  simp

/-- After a sub-action of a body pass succeeds, the engine reads the
cancellation flag; if it is set the pass stops at once with
`terminate = true`, without touching the remaining actions. -/
theorem execBody_stops_on_flag (env : Env) (fuel : Nat) (a : Action)
    (rest : List Action) (s s1 : St)
    (hexec : Action.execute env fuel a s = some (Except.ok s1))
    (hflag : env.flag s1.reads = true) :
    execBody env fuel (a :: rest) s =
      some (Except.ok ({ s1 with reads := s1.reads + 1 }, true)) := by
  rw [execBody, hexec]
  simp [hflag]

/-- A sub-action error aborts the body pass at once: the remaining
actions of the pass are never executed and the error is returned. -/
theorem execBody_error (env : Env) (fuel : Nat) (a : Action)
    (rest : List Action) (s : St) (err : AppError × St)
    (hexec : Action.execute env fuel a s = some (Except.error err)) :
    execBody env fuel (a :: rest) s = some (Except.error err) := by
  rw [execBody, hexec]

/-- A body pass error aborts the `while` loop at once and is surfaced
unchanged. -/
theorem execWhile_error (env : Env) (fuel : Nat) (la : LoopAction)
    (i : Nat) (s : St) (err : AppError × St)
    (hcond : i < la.iterations ∨ la.infinite = true)
    (hbody : execBody env fuel la.actions s = some (Except.error err)) :
    execWhile env (fuel + 1) la i s = some (Except.error err) := by
  rw [execWhile, if_pos hcond, hbody]

/-- JSON values: the model of what `serde_json` writes and parses.  The
byte layer of `serde_json` is a faithful rendering of a JSON value to
text and back, so the persisted file contents are modelled by the
`Json` value itself. -/
inductive Json where
  | null
  | bool (b : Bool)
  | num (n : Int)
  | str (s : String)
  | arr (xs : List Json)
  | obj (fields : List (String × Json))

/-- serde encoding of the `enigo::Key` model: unit variants as their
name string, the payload variant externally tagged. -/
def encKey : Key → Json
  | Key.shift => Json.str "Shift"
  | Key.control => Json.str "Control"
  | Key.alt => Json.str "Alt"
  | Key.returnKey => Json.str "Return"
  | Key.unicode c => Json.obj [("Unicode", Json.str (String.mk [c]))]

/-- serde decoding of the `enigo::Key` model. -/
def decKey : Json → Option Key
  | Json.str "Shift" => some Key.shift
  | Json.str "Control" => some Key.control
  | Json.str "Alt" => some Key.alt
  | Json.str "Return" => some Key.returnKey
  | Json.obj [("Unicode", Json.str s)] =>
    match s.data with
    | [c] => some (Key.unicode c)
    | _ => none
  | _ => none

/-- serde encoding of the `enigo::Button` model. -/
def encButton : MButton → Json
  | MButton.left => Json.str "Left"
  | MButton.middle => Json.str "Middle"
  | MButton.right => Json.str "Right"

/-- serde decoding of the `enigo::Button` model. -/
def decButton : Json → Option MButton
  | Json.str "Left" => some MButton.left
  | Json.str "Middle" => some MButton.middle
  | Json.str "Right" => some MButton.right
  | _ => none

/-- serde external tagging of the `KeyButton` enum. -/
def encKeyButton : KeyButton → Json
  | KeyButton.KeyboardKey k => Json.obj [("KeyboardKey", encKey k)]
  | KeyButton.MouseButton b => Json.obj [("MouseButton", encButton b)]

/-- serde decoding of the `KeyButton` enum. -/
def decKeyButton : Json → Option KeyButton
  | Json.obj [("KeyboardKey", j)] =>
    match decKey j with
    | some k => some (KeyButton.KeyboardKey k)
    | none => none
  | Json.obj [("MouseButton", j)] =>
    match decButton j with
    | some b => some (KeyButton.MouseButton b)
    | none => none
  | _ => none

/-- Decode a JSON number as a `u64` field (non-negative). -/
def decNat (j : Json) : Option Nat :=
  match j with
  | Json.num n => if 0 ≤ n then some n.toNat else none
  | _ => none

/-- serde encoding of `PressAction` (fields in declaration order). -/
def encPress (p : PressAction) : Json :=
  Json.obj [("keybutton", encKeyButton p.keybutton),
    ("down", Json.bool p.down), ("up", Json.bool p.up),
    ("hold_time_ms", Json.num (Int.ofNat p.hold_time_ms)),
    ("delay_after_ms", Json.num (Int.ofNat p.delay_after_ms))]

/-- serde decoding of `PressAction`. -/
def decPress : Json → Option PressAction
  | Json.obj [("keybutton", jkb), ("down", Json.bool dn),
      ("up", Json.bool u), ("hold_time_ms", jh), ("delay_after_ms", jd)] =>
    match decKeyButton jkb, decNat jh, decNat jd with
    | some kb, some h, some d => some (PressAction.mk kb dn u h d)
    | _, _, _ => none
  | _ => none

/-- serde encoding of `MoveAction`. -/
def encMove (m : MoveAction) : Json :=
  Json.obj [("x", Json.num m.x), ("y", Json.num m.y),
    ("relative", Json.bool m.relative),
    ("move_time_ms", Json.num (Int.ofNat m.move_time_ms)),
    ("delay_after_ms", Json.num (Int.ofNat m.delay_after_ms))]

/-- serde decoding of `MoveAction`. -/
def decMove : Json → Option MoveAction
  | Json.obj [("x", Json.num x), ("y", Json.num y),
      ("relative", Json.bool rel), ("move_time_ms", jt),
      ("delay_after_ms", jd)] =>
    match decNat jt, decNat jd with
    | some t, some d => some (MoveAction.mk x y rel t d)
    | _, _ => none
  | _ => none

/-- serde encoding of `DelayAction`. -/
def encDelay (d : DelayAction) : Json :=
  Json.obj [("random", Json.bool d.random),
    ("delay_ms_min", Json.num (Int.ofNat d.delay_ms_min)),
    ("delay_ms_max", Json.num (Int.ofNat d.delay_ms_max))]

/-- serde decoding of `DelayAction`. -/
def decDelay : Json → Option DelayAction
  | Json.obj [("random", Json.bool r), ("delay_ms_min", jmin),
      ("delay_ms_max", jmax)] =>
    match decNat jmin, decNat jmax with
    | some mn, some mx => some (DelayAction.mk r mn mx)
    | _, _ => none
  | _ => none

mutual
/-- serde external tagging of the `Action` enum. -/
def encAction : Action → Json
  | Action.Loop la => Json.obj [("Loop", encLoop la)]
  | Action.Press p => Json.obj [("Press", encPress p)]
  | Action.Move m => Json.obj [("Move", encMove m)]
  | Action.Delay d => Json.obj [("Delay", encDelay d)]
termination_by a => sizeOf a

/-- serde encoding of `LoopAction` (fields in declaration order, the
body as a JSON array). -/
def encLoop : LoopAction → Json
  | LoopAction.mk inf n as =>
    Json.obj [("infinite", Json.bool inf),
      ("iterations", Json.num (Int.ofNat n)),
      ("actions", Json.arr (encActions as))]
termination_by la => sizeOf la

/-- serde encoding of a body of actions. -/
def encActions : List Action → List Json
  | [] => []
  | a :: rest => encAction a :: encActions rest
termination_by as => sizeOf as
end

mutual
/-- serde decoding of the `Action` enum. -/
def decAction : Json → Option Action
  | Json.obj [("Loop", j)] =>
    match decLoop j with
    | some la => some (Action.Loop la)
    | none => none
  | Json.obj [("Press", j)] =>
    match decPress j with
    | some p => some (Action.Press p)
    | none => none
  | Json.obj [("Move", j)] =>
    match decMove j with
    | some m => some (Action.Move m)
    | none => none
  | Json.obj [("Delay", j)] =>
    match decDelay j with
    | some d => some (Action.Delay d)
    | none => none
  | _ => none
termination_by j => sizeOf j

/-- serde decoding of `LoopAction`. -/
def decLoop : Json → Option LoopAction
  | Json.obj [("infinite", Json.bool inf), ("iterations", Json.num n),
      ("actions", Json.arr xs)] =>
    if 0 ≤ n then
      match decActions xs with
      | some as => some (LoopAction.mk inf n.toNat as)
      | none => none
    else none
  | _ => none
termination_by j => sizeOf j

/-- serde decoding of a body of actions. -/
def decActions : List Json → Option (List Action)
  | [] => some []
  | j :: rest =>
    match decAction j, decActions rest with
    | some a, some as => some (a :: as)
    | _, _ => none
termination_by xs => sizeOf xs
end

theorem decKey_encKey (k : Key) : decKey (encKey k) = some k := by
  cases k <;> simp [encKey, decKey]

theorem decButton_encButton (b : MButton) :
    decButton (encButton b) = some b := by
  cases b <;> simp [encButton, decButton]

theorem decKeyButton_encKeyButton (kb : KeyButton) :
    decKeyButton (encKeyButton kb) = some kb := by
  cases kb with
  | KeyboardKey k => simp [encKeyButton, decKeyButton, decKey_encKey]
  | MouseButton b => simp [encKeyButton, decKeyButton, decButton_encButton]

theorem decNat_ofNat (n : Nat) : decNat (Json.num (Int.ofNat n)) = some n := by
  simp [decNat]

theorem decPress_encPress (p : PressAction) :
    decPress (encPress p) = some p := by
  simp [encPress, decPress, decKeyButton_encKeyButton, decNat]

theorem decMove_encMove (m : MoveAction) : decMove (encMove m) = some m := by
  simp [encMove, decMove, decNat]

theorem decDelay_encDelay (d : DelayAction) :
    decDelay (encDelay d) = some d := by
  simp [encDelay, decDelay, decNat]

mutual
theorem decAction_encAction (a : Action) :
    decAction (encAction a) = some a := by
  cases a with
  | Loop la => rw [encAction, decAction, decLoop_encLoop la]
  | Press p => rw [encAction, decAction, decPress_encPress p]
  | Move m => rw [encAction, decAction, decMove_encMove m]
  | Delay d => rw [encAction, decAction, decDelay_encDelay d]
termination_by sizeOf a

theorem decLoop_encLoop (la : LoopAction) :
    decLoop (encLoop la) = some la := by
  cases la with
  | mk inf n as =>
    rw [encLoop, decLoop, decActions_encActions as]
    simp
termination_by sizeOf la

theorem decActions_encActions (as : List Action) :
    decActions (encActions as) = some as := by
  cases as with
  | nil => rw [encActions, decActions]
  | cons a rest =>
    rw [encActions, decActions, decAction_encAction a,
      decActions_encActions rest]
termination_by sizeOf as
end

/-- Model of `std::io::ErrorKind` (only the kinds relevant here; `other`
is the kind the code passes to `Error::new`). -/
inductive ErrorKind where
  | notFound
  | permissionDenied
  | other
deriving DecidableEq

/-- Model of `std::io::Error`: either an OS-originated error (what
`File::open` / `read_to_end` / `File::create` / `write_all` produce,
carrying an errno) or a custom error built with `io::Error::new(kind,
msg)`. -/
inductive IoError where
  | os (code : Int)
  | custom (kind : ErrorKind) (msg : String)
deriving DecidableEq

/-- The error `load_from_disk` constructs when the bytes do not decode
as a `LoopAction`: `Error::new(ErrorKind::Other, "Couldn't deserialize
buf into a LoopAction")`. -/
def deserializeErr : IoError :=
  IoError.custom ErrorKind.other "Couldn't deserialize buf into a LoopAction"

/-- `LoopAction::save_to_disk`, modelled at the JSON level: the payload
written to the file is `serde_json::to_vec(&self)`, i.e. the JSON
encoding of the tree.  (File create/write failures are I/O errors
propagated to the caller; they do not change the payload.) -/
def save_to_disk (la : LoopAction) : Json := encLoop la

/-- `LoopAction::load_from_disk`: `readResult` is the combined outcome
of `File::open` and `read_to_end` — an OS I/O error, or the JSON payload
of the file.  On a successful read the bytes are decoded; only a
successful decode assigns `self` (`self.clone_from(&loopaction)`), a
failed decode returns the distinct `deserializeErr` and leaves `self`
unchanged.  The returned pair is (io result, the tree after the call). -/
def load_from_disk (self : LoopAction) (readResult : Except IoError Json) :
    Except IoError Unit × LoopAction :=
  match readResult with
  | Except.error e => (Except.error e, self)
  | Except.ok buf =>
    match decLoop buf with
    | some loopaction => (Except.ok (), loopaction)
    | none => (Except.error deserializeErr, self)

/-- Initial execution state: no calls, reads or draws yet, empty trace. -/
def stInit : St := { calls := 0, reads := 0, rands := 0, trace := [] }

/-- Environment: no port failures, cancellation flag never set. -/
def envQuiet : Env :=
  { fail := fun _ => false, loc := fun _ => (0, 0),
    flag := fun _ => false, rnd := fun _ => 0 }

/-- Environment: no port failures, cancellation flag always set. -/
def envCancel : Env :=
  { fail := fun _ => false, loc := fun _ => (0, 0),
    flag := fun _ => true, rnd := fun _ => 0 }

/-- Environment: the third port call (index 2) fails, flag never set. -/
def envFailThird : Env :=
  { fail := fun k => k == 2, loc := fun _ => (0, 0),
    flag := fun _ => false, rnd := fun _ => 0 }

/-- A click on the shift key: down and up, 5 ms hold, 1 ms delay. -/
def pressA : PressAction :=
  PressAction.mk (KeyButton.KeyboardKey Key.shift) true true 5 1

/-- **C1**: for every `LoopAction` executed with the cancellation flag
set (and no port failure), the engine checks the flag right after each
individual sub-action execution of a body pass: the pass stops
immediately after the first sub-action — independent of the remaining
actions of the pass — with `terminate = true`; a pass that reported
`terminate` makes the enclosing `while` loop exit at once; and the
result of the whole loop execution is never an error (cancellation
propagates upward as `Ok`). -/
theorem c1_cancel_stops_immediately_ok (env : Env)
    (hfail : ∀ k, env.fail k = false) (hflag : ∀ k, env.flag k = true) :
    (∀ fuel a rest rest' s s1,
      Action.execute env fuel a s = some (Except.ok s1) →
      execBody env fuel (a :: rest) s =
        some (Except.ok ({ s1 with reads := s1.reads + 1 }, true)) ∧
      execBody env fuel (a :: rest) s = execBody env fuel (a :: rest') s) ∧
    (∀ fuel la i s s1, (i < la.iterations ∨ la.infinite = true) →
      execBody env fuel la.actions s = some (Except.ok (s1, true)) →
      execWhile env (fuel + 1) la i s =
        some (Except.ok (s1, if la.infinite then i else i + 1))) ∧
    (∀ fuel la s r, LoopAction.execute env fuel la s = some r →
      ∃ s', r = Except.ok s') := by
  refine ⟨?_, ?_, ?_⟩
  · intro fuel a rest rest' s s1 h
    have h1 := execBody_stops_on_flag env fuel a rest s s1 h (hflag s1.reads)
    have h2 := execBody_stops_on_flag env fuel a rest' s s1 h (hflag s1.reads)
    exact ⟨h1, h1.trans h2.symm⟩
  · intro fuel la i s s1 hcond hbody
    exact execWhile_terminates_on_flag env fuel la i s s1 hcond hbody
  · intro fuel la s r h
    have hm := (execWhile_master env hfail (fun _ _ => True) (fun _ => True)
      (fun _ => trivial) (fun _ _ _ _ _ => trivial) (fun _ => trivial)
      (fun _ _ _ => trivial) (fun _ _ _ _ => trivial) (fun _ _ => trivial)
      fuel).1 la 0 s (loopPressesOk_trivial la)
    rw [LoopAction.execute] at h
    rcases hm with hnone | ⟨r', heqw, _⟩
    · rw [hnone] at h
      cases h
    · rw [heqw] at h
      simp only [Option.some.injEq] at h
      exact ⟨r'.1, h.symm⟩

/-- Witness for C1: a two-action body under an always-set flag stops
right after the first action, with `terminate = true`, whatever the rest
of the body is. -/
theorem c1_witness :
    execBody envCancel 1
      (Action.Delay (DelayAction.mk false 5 9) ::
        [Action.Delay (DelayAction.mk false 1 2)]) stInit =
      some (Except.ok ({ sleepSt stInit 5 with
        reads := (sleepSt stInit 5).reads + 1 }, true)) :=
  ((c1_cancel_stops_immediately_ok envCancel (fun _ => rfl)
      (fun _ => rfl)).1 1 (Action.Delay (DelayAction.mk false 5 9))
    [Action.Delay (DelayAction.mk false 1 2)] [] stInit (sleepSt stInit 5)
    (by simp [Action.execute, DelayAction.execute, envQuiet, envCancel,
      stInit])).1

/-- **C2**: for every `MoveAction` with `move_time_ms = T > 0` and no
port failure: the interpolation loop, run from its entry state, issues
relative moves summing exactly to the resolved displacement on each
axis and sleeps summing exactly to `T` (the final tick is clamped); and
the full `MoveAction::execute` adds to the trace exactly the
displacement (resolved as `(x, y)` when relative, target minus queried
pointer position when absolute) and exactly `T + delay_after_ms` of
sleep. -/
theorem c2_move_interpolation_exact (env : Env)
    (hfail : ∀ k, env.fail k = false) (m : MoveAction)
    (hT : 0 < m.move_time_ms) (s : St) :
    (∀ (xrel yrel : Int) (s0 : St),
      ∃ s1, moveLoop env m.move_time_ms xrel yrel 0 0 0 s0 = Except.ok s1 ∧
        sumRelX s1.trace = sumRelX s0.trace + xrel ∧
        sumRelY s1.trace = sumRelY s0.trace + yrel ∧
        sumSleep s1.trace = sumSleep s0.trace + m.move_time_ms) ∧
    (∃ s', MoveAction.execute m env s = Except.ok s' ∧
      sumRelX s'.trace = sumRelX s.trace +
        (displacement m (env.loc s.calls)).1 ∧
      sumRelY s'.trace = sumRelY s.trace +
        (displacement m (env.loc s.calls)).2 ∧
      sumSleep s'.trace = sumSleep s.trace + m.move_time_ms +
        m.delay_after_ms) :=
  ⟨fun xrel yrel s0 => moveLoop_entry env hfail m.move_time_ms hT xrel yrel s0,
    moveExecute_exact env hfail m hT s⟩

/-- Witness for C2: a relative move of (10, -4) over 7 ms. -/
theorem c2_witness :
    (∀ (xrel yrel : Int) (s0 : St),
      ∃ s1, moveLoop envQuiet 7 xrel yrel 0 0 0 s0 = Except.ok s1 ∧
        sumRelX s1.trace = sumRelX s0.trace + xrel ∧
        sumRelY s1.trace = sumRelY s0.trace + yrel ∧
        sumSleep s1.trace = sumSleep s0.trace + 7) ∧
    (∃ s', MoveAction.execute (MoveAction.mk 10 (-4) true 7 2) envQuiet
        stInit = Except.ok s' ∧
      sumRelX s'.trace = sumRelX stInit.trace +
        (displacement (MoveAction.mk 10 (-4) true 7 2)
          (envQuiet.loc stInit.calls)).1 ∧
      sumRelY s'.trace = sumRelY stInit.trace +
        (displacement (MoveAction.mk 10 (-4) true 7 2)
          (envQuiet.loc stInit.calls)).2 ∧
      sumSleep s'.trace = sumSleep stInit.trace + 7 + 2) :=
  c2_move_interpolation_exact envQuiet (fun _ => rfl)
    (MoveAction.mk 10 (-4) true 7 2) (by decide) stInit

/-- **C3**: a load whose bytes do not decode as a `LoopAction` returns
the distinct deserialize error — a `custom` error, never equal to any
OS-originated I/O error — and leaves the in-memory tree unchanged; an
I/O failure is returned as-is (also leaving the tree unchanged); and
the tree is replaced only when the decode succeeds. -/
theorem c3_load_decode_failure (self : LoopAction)
    (readResult : Except IoError Json) :
    (∀ buf, readResult = Except.ok buf → decLoop buf = none →
      load_from_disk self readResult = (Except.error deserializeErr, self)) ∧
    (∀ code, deserializeErr ≠ IoError.os code) ∧
    (∀ e, readResult = Except.error e →
      load_from_disk self readResult = (Except.error e, self)) ∧
    ((load_from_disk self readResult).2 ≠ self →
      ∃ buf la, readResult = Except.ok buf ∧ decLoop buf = some la ∧
        load_from_disk self readResult = (Except.ok (), la)) := by
  refine ⟨?_, ?_, ?_, ?_⟩
  · intro buf hok hdec
    subst hok
    simp [load_from_disk, hdec]
  · intro code h
    cases h
  · intro e herr
    subst herr
    simp [load_from_disk]
  · intro hne
    cases readResult with
    | error e => simp [load_from_disk] at hne
    | ok buf =>
      rcases hdec : decLoop buf with _ | la
      · simp [load_from_disk, hdec] at hne
      · exact ⟨buf, la, rfl, hdec, by simp [load_from_disk, hdec]⟩

/-- Witness for C3: loading a file whose JSON payload is `null` (which
does not decode as a `LoopAction`) reports the deserialize error and
leaves the existing tree unchanged. -/
theorem c3_witness :
    load_from_disk (LoopAction.mk false 1 []) (Except.ok Json.null) =
      (Except.error deserializeErr, LoopAction.mk false 1 []) :=
  (c3_load_decode_failure (LoopAction.mk false 1 [])
    (Except.ok Json.null)).1 Json.null rfl (by simp [decLoop])

/-- **C4**: serializing any `LoopAction` tree (any variant mix, any
nesting depth) and loading the result yields a structurally equal tree:
the codec round-trips losslessly, and `load_from_disk` applied to the
saved payload succeeds and produces the original tree. -/
theorem c4_save_load_roundtrip (la self : LoopAction) :
    decLoop (save_to_disk la) = some la ∧
    load_from_disk self (Except.ok (save_to_disk la)) =
      (Except.ok (), la) := by
  constructor
  · rw [save_to_disk]
    exact decLoop_encLoop la
  · simp [load_from_disk, save_to_disk, decLoop_encLoop]

/-- **C5**: a press whose down call fails aborts immediately with the
port error: the paired release is never attempted and no hold or delay
sleep happens (the state at the error is exactly the entry state); a
sub-action error aborts the body pass before any later action of the
pass runs; and the `while` loop surfaces the error unchanged. -/
theorem c5_press_failure_aborts (env : Env) (p : PressAction) (s : St)
    (hdown : p.down = true) (hf : env.fail s.calls = true) :
    PressAction.execute p env s =
      Except.error (AppError.Input s.calls, s) ∧
    (∀ fuel a rest s0 err,
      Action.execute env fuel a s0 = some (Except.error err) →
      execBody env fuel (a :: rest) s0 = some (Except.error err)) ∧
    (∀ fuel la i s0 err, (i < la.iterations ∨ la.infinite = true) →
      execBody env fuel la.actions s0 = some (Except.error err) →
      execWhile env (fuel + 1) la i s0 = some (Except.error err)) := by
  refine ⟨?_, ?_, ?_⟩
  · simp [PressAction.execute, hdown, KeyButton.downCall, portCall, hf,
      Bind.bind, Except.bind]
  · intro fuel a rest s0 err h
    exact execBody_error env fuel a rest s0 err h
  · intro fuel la i s0 err hcond hbody
    exact execWhile_error env fuel la i s0 err hcond hbody

/-- The state after the first click of the C5 scenario (two successful
port calls, one flag read, the click's four events) — the point at which
the second press's down call fails. -/
def stAfterFirstPress : St :=
  St.mk 2 1 0 [Event.down (KeyButton.KeyboardKey Key.shift), Event.sleep 5,
    Event.up (KeyButton.KeyboardKey Key.shift), Event.sleep 1]

/-- Witness for C5, the concrete scenario: in a loop body of three
sequential presses where the second press's down call fails, the press
aborts with the port error leaving its entry state untouched, and the
whole loop run surfaces that error — the third press never executes. -/
theorem c5_witness :
    PressAction.execute pressA envFailThird stAfterFirstPress =
      Except.error (AppError.Input 2, stAfterFirstPress) ∧
    execWhile envFailThird 1
      (LoopAction.mk false 1 [Action.Press pressA, Action.Press pressA,
        Action.Press pressA]) 0 stInit =
      some (Except.error (AppError.Input 2, stAfterFirstPress)) := by
  constructor
  · exact (c5_press_failure_aborts envFailThird pressA stAfterFirstPress
      rfl rfl).1
  · exact (c5_press_failure_aborts envFailThird pressA stAfterFirstPress
      rfl rfl).2.2 0
      (LoopAction.mk false 1 [Action.Press pressA, Action.Press pressA,
        Action.Press pressA]) 0 stInit (AppError.Input 2, stAfterFirstPress)
      (Or.inl (by decide))
      (by simp [execBody, Action.execute, PressAction.execute,
        KeyButton.downCall, KeyButton.upCall, portCall, sleepSt,
        envFailThird, stInit, pressA, stAfterFirstPress,
        LoopAction.actions, Bind.bind, Except.bind])

/-- A press that only pushes the key down (legal per the data model). -/
def pressDownOnly : PressAction :=
  PressAction.mk (KeyButton.KeyboardKey Key.shift) true false 0 0

/-- Counterexample to C6 as stated: an infinite loop whose body is a
down-only press, run with no port failure and the cancellation flag
set, stops via cancellation with a successful result — and the shift
key is still held down at the stop point.  (The claim is true only for
presses whose down is paired with an up.) -/
theorem c6_counterexample :
    execWhile envCancel 1 (LoopAction.mk true 0 [Action.Press pressDownOnly])
      0 stInit =
      some (Except.ok (St.mk 1 1 0
        [Event.down (KeyButton.KeyboardKey Key.shift), Event.sleep 0], 0)) ∧
    held [Event.down (KeyButton.KeyboardKey Key.shift), Event.sleep 0] =
      [KeyButton.KeyboardKey Key.shift] := by
  constructor
  · simp [execWhile, execBody, Action.execute, PressAction.execute,
      KeyButton.downCall, portCall, sleepSt, envCancel, stInit,
      pressDownOnly, LoopAction.actions, LoopAction.infinite,
      LoopAction.iterations, Bind.bind, Except.bind]
  · rfl

theorem held_sleep (s : St) (ms : Nat) :
    held (sleepSt s ms).trace = held s.trace := by
  simp [sleepSt, held, heldFrom_append, heldFrom]

/-- **C6 (amended)**: for every execution with no port failure of a tree
in which every press that pushes a key down also releases it
(`down → up`), stopping — in particular stopping via the cancellation
flag, which is read only at action boundaries — never leaves a key or
button held down: if the run starts with nothing held, nothing is held
at the final state. -/
theorem c6_cancel_no_stuck_keys (env : Env)
    (hfail : ∀ k, env.fail k = false) (la : LoopAction)
    (hsafe : LoopAction.pressesOk (fun p => p.down = true → p.up = true) la)
    (fuel : Nat) (s : St) (hheld : held s.trace = [])
    (r : St × Nat) (h : execWhile env fuel la 0 s = some (Except.ok r)) :
    held r.1.trace = [] := by
  have hpress : ∀ (p : PressAction) (s1 : St),
      (p.down = true → p.up = true) →
      (held s1.trace = [] →
        held ({ s1 with calls := s1.calls + pressCalls p,
                        trace := s1.trace ++ pressEvents p } : St).trace
          = []) := by
    intro p s1 hGP hh
    show held (s1.trace ++ pressEvents p) = []
    rw [held, heldFrom_append]
    rw [held] at hh
    rw [hh]
    exact heldFrom_pressEvents p hGP
  have hmv : ∀ (m : MoveAction) (s1 s2 : St),
      MoveAction.execute m env s1 = Except.ok s2 →
      (held s1.trace = [] → held s2.trace = []) := by
    intro m s1 s2 hm12 hh
    obtain ⟨u, hu, hkf, _, _⟩ := moveExecute_keyfree env m s1 s2 hm12
    rw [hu, held, heldFrom_append]
    rw [held] at hh
    rw [hh]
    exact heldFrom_keyFree u [] hkf
  have hdel : ∀ (d : DelayAction) (s1 : St),
      (held s1.trace = [] → held (DelayAction.execute d env s1).trace = []) := by
    intro d s1 hh
    unfold DelayAction.execute
    split
    · rw [held_sleep]
      exact hh
    · rw [held_sleep]
      exact hh
  rcases (execWhile_master env hfail
      (fun s1 s2 => held s1.trace = [] → held s2.trace = [])
      (fun p => p.down = true → p.up = true)
      (fun _ hh => hh)
      (fun _ _ _ hab hbc hh => hbc (hab hh))
      (fun _ hh => hh)
      hpress hmv hdel fuel).1 la 0 s hsafe with hnone | ⟨r', heqw, hR⟩
  · rw [hnone] at h
    cases h
  · rw [heqw] at h
    simp only [Option.some.injEq, Except.ok.injEq] at h
    rw [← h]
    exact hR hheld

/-- Witness for C6 (amended): a click loop under an always-set flag
stops after one full click with nothing held. -/
theorem c6_witness :
    held (St.mk 2 1 0 [Event.down (KeyButton.KeyboardKey Key.shift),
      Event.sleep 5, Event.up (KeyButton.KeyboardKey Key.shift),
      Event.sleep 1] : St).trace = [] :=
  c6_cancel_no_stuck_keys envCancel (fun _ => rfl)
    (LoopAction.mk true 0 [Action.Press pressA])
    (by rw [pressesOk_mk, listPressesOk_cons, pressesOk_Press,
          listPressesOk_nil]
        exact ⟨fun _ => rfl, trivial⟩)
    1 stInit rfl
    (St.mk 2 1 0 [Event.down (KeyButton.KeyboardKey Key.shift),
      Event.sleep 5, Event.up (KeyButton.KeyboardKey Key.shift),
      Event.sleep 1], 0)
    (by simp [execWhile, execBody, Action.execute, PressAction.execute,
      KeyButton.downCall, KeyButton.upCall, portCall, sleepSt, envCancel,
      stInit, pressA, LoopAction.actions, LoopAction.infinite,
      LoopAction.iterations, Bind.bind, Except.bind])

/-- **C7**: for a `LoopAction` with `infinite = false` run with the
cancellation flag never set, the loop counter at any successful exit
equals `iterations` — the while loop entered the body exactly
`iterations` times, bumping the counter once per completed pass — and
`iterations = 0` is a legal no-op: the body is never entered and the
run returns success with the state untouched. -/
theorem c7_finite_loop_iteration_count (env : Env)
    (hflag : ∀ k, env.flag k = false) (la : LoopAction)
    (hinf : la.infinite = false) :
    (∀ fuel s s' n, execWhile env fuel la 0 s = some (Except.ok (s', n)) →
      n = la.iterations) ∧
    (la.iterations = 0 → ∀ fuel s,
      execWhile env (fuel + 1) la 0 s = some (Except.ok (s, 0))) := by
  constructor
  · intro fuel s s' n h
    exact execWhile_count env hflag la hinf fuel 0 s s' n (Nat.zero_le _) h
  · intro h0 fuel s
    rw [execWhile]
    have hc : ¬ (0 < la.iterations ∨ la.infinite = true) := by
      rw [h0, hinf]
      simp
    rw [if_neg hc]

/-- Witness for C7: a two-iteration delay loop exits with counter 2,
and a zero-iteration loop is a no-op. -/
theorem c7_witness :
    (2 : Nat) = (LoopAction.mk false 2
      [Action.Delay (DelayAction.mk false 5 9)]).iterations ∧
    execWhile envQuiet 1 (LoopAction.mk false 0 []) 0 stInit =
      some (Except.ok (stInit, 0)) := by
  constructor
  · exact (c7_finite_loop_iteration_count envQuiet (fun _ => rfl)
      (LoopAction.mk false 2 [Action.Delay (DelayAction.mk false 5 9)])
      rfl).1 3 stInit (St.mk 0 2 0 [Event.sleep 5, Event.sleep 5]) 2
      (by simp [execWhile, execBody, Action.execute, DelayAction.execute,
        sleepSt, envQuiet, stInit, LoopAction.actions, LoopAction.infinite,
        LoopAction.iterations])
  · exact (c7_finite_loop_iteration_count envQuiet (fun _ => rfl)
      (LoopAction.mk false 0 []) rfl).2 rfl 0 stInit

/-- **C8**: `DelayAction::execute` sleeps exactly `delay_ms_min` when
not random or when `min ≥ max`; when random with `min < max` it sleeps
`min + raw % (max - min)` — a value in `[min, max)`, so `max` itself is
never slept — and the map `r ↦ min + r` matches the values of
`[min, max)` one-to-one with the residues below `max - min` (the image
of a uniform draw is uniform on `[min, max)`). -/
theorem c8_delay_semantics (env : Env) (d : DelayAction) (s : St) :
    ((d.random = false ∨ d.delay_ms_max ≤ d.delay_ms_min) →
      DelayAction.execute d env s = sleepSt s d.delay_ms_min) ∧
    (d.random = true → d.delay_ms_min < d.delay_ms_max →
      DelayAction.execute d env s =
        sleepSt { s with rands := s.rands + 1 }
          (d.delay_ms_min +
            env.rnd s.rands % (d.delay_ms_max - d.delay_ms_min)) ∧
      d.delay_ms_min ≤ d.delay_ms_min +
        env.rnd s.rands % (d.delay_ms_max - d.delay_ms_min) ∧
      d.delay_ms_min + env.rnd s.rands % (d.delay_ms_max - d.delay_ms_min) <
        d.delay_ms_max) ∧
    (d.delay_ms_min < d.delay_ms_max →
      ∀ w, (d.delay_ms_min ≤ w ∧ w < d.delay_ms_max) ↔
        ((∃ r, r < d.delay_ms_max - d.delay_ms_min ∧
            d.delay_ms_min + r = w) ∧
          ∀ r1 r2, r1 < d.delay_ms_max - d.delay_ms_min →
            r2 < d.delay_ms_max - d.delay_ms_min →
            d.delay_ms_min + r1 = w → d.delay_ms_min + r2 = w → r1 = r2)) := by
  refine ⟨?_, ?_, ?_⟩
  · intro h
    unfold DelayAction.execute
    have hc : (!d.random || decide (d.delay_ms_min ≥ d.delay_ms_max))
        = true := by
      rcases h with h | h
      · simp [h]
      · simp [ge_iff_le, h]
    rw [if_pos hc]
  · intro hr hlt
    unfold DelayAction.execute
    rw [if_neg]
    · have hmod : env.rnd s.rands % (d.delay_ms_max - d.delay_ms_min) <
          d.delay_ms_max - d.delay_ms_min := Nat.mod_lt _ (by omega)
      exact ⟨rfl, Nat.le_add_right _ _, by omega⟩
    · simp only [hr, Bool.not_true, Bool.false_or, decide_eq_true_eq,
        ge_iff_le, not_le]
      exact hlt
  · intro hlt w
    constructor
    · rintro ⟨h1, h2⟩
      exact ⟨⟨w - d.delay_ms_min, by omega, by omega⟩,
        fun r1 r2 _ _ e1 e2 => by omega⟩
    · rintro ⟨⟨r, hr, he⟩, _⟩
      omega

/-- Environment whose next random draw is 7 (so a `[5, 9)` delay
sleeps `5 + 7 % 4 = 8`). -/
def envRand7 : Env :=
  { fail := fun _ => false, loc := fun _ => (0, 0),
    flag := fun _ => false, rnd := fun _ => 7 }

/-- Witness for C8: the non-random case sleeps exactly the minimum; the
random case sleeps the reduced draw, inside `[min, max)`. -/
theorem c8_witness :
    DelayAction.execute (DelayAction.mk false 5 9) envQuiet stInit =
      sleepSt stInit 5 ∧
    (DelayAction.execute (DelayAction.mk true 5 9) envRand7 stInit =
      sleepSt { stInit with rands := stInit.rands + 1 }
        (5 + envRand7.rnd stInit.rands % (9 - 5)) ∧
      5 ≤ 5 + envRand7.rnd stInit.rands % (9 - 5) ∧
      5 + envRand7.rnd stInit.rands % (9 - 5) < 9) :=
  ⟨(c8_delay_semantics envQuiet (DelayAction.mk false 5 9) stInit).1
      (Or.inl rfl),
    (c8_delay_semantics envRand7 (DelayAction.mk true 5 9) stInit).2.1
      rfl (by decide)⟩

/-- **C9**: a `LoopAction` with `infinite = true` and an empty body
returns success immediately after a single empty body pass, leaving the
state — including the flag-read counter — untouched: the cancellation
flag is never consulted. -/
theorem c9_infinite_empty_loop_terminates (env : Env) (fuel : Nat)
    (la : LoopAction) (hinf : la.infinite = true)
    (hempty : la.actions = []) (i : Nat) (s : St) :
    execWhile env (fuel + 1) la i s = some (Except.ok (s, i)) := by
  rw [execWhile, if_pos (Or.inr hinf), hempty]
  simp [execBody, hinf]

/-- Witness for C9: an infinite loop with 7 declared iterations and an
empty body returns at once with the state untouched. -/
theorem c9_witness :
    execWhile envQuiet 5 (LoopAction.mk true 7 []) 0 stInit =
      some (Except.ok (stInit, 0)) :=
  c9_infinite_empty_loop_terminates envQuiet 4 (LoopAction.mk true 7 [])
    rfl rfl 0 stInit

/-- **C10**: executing a `DelayAction` is infallible — its dispatch
always returns `Ok`, for any environment — so when no port call fails
no error is ever produced by executing any action tree: every error of
a run originates from a failed input-port call (made by a `Press` or
`Move` action). -/
theorem c10_delay_infallible_errors_from_port (env : Env)
    (hfail : ∀ k, env.fail k = false) :
    (∀ (env' : Env) (fuel : Nat) (d : DelayAction) (s : St),
      Action.execute env' fuel (Action.Delay d) s =
        some (Except.ok (DelayAction.execute d env' s))) ∧
    (∀ fuel a s err,
      Action.execute env fuel a s ≠ some (Except.error err)) := by
  constructor
  · intro env' fuel d s
    simp [Action.execute]
  · intro fuel a s err h
    rcases (execWhile_master env hfail (fun _ _ => True) (fun _ => True)
        (fun _ => trivial) (fun _ _ _ _ _ => trivial) (fun _ => trivial)
        (fun _ _ _ => trivial) (fun _ _ _ _ => trivial) (fun _ _ => trivial)
        fuel).2.1 a s (actionPressesOk_trivial a) with hnone | ⟨s', heq, _⟩
    · rw [hnone] at h
      cases h
    · rw [heq] at h
      simp at h

/-- Witness for C10: a delay succeeds even under a failing port
environment, and a press under a healthy port produces no error. -/
theorem c10_witness :
    Action.execute envFailThird 0 (Action.Delay (DelayAction.mk true 3 10))
      stInit = some (Except.ok (DelayAction.execute
        (DelayAction.mk true 3 10) envFailThird stInit)) ∧
    Action.execute envQuiet 2 (Action.Press pressA) stInit ≠
      some (Except.error (AppError.Input 0, stInit)) :=
  ⟨(c10_delay_infallible_errors_from_port envQuiet (fun _ => rfl)).1
      envFailThird 0 (DelayAction.mk true 3 10) stInit,
    (c10_delay_infallible_errors_from_port envQuiet (fun _ => rfl)).2
      2 (Action.Press pressA) stInit (AppError.Input 0, stInit)⟩

end AC
